import Mathlib

/-
Shallow embedding of the reddit-hole video generator:
  src/main.py, src/utils/helpers.py, src/utils/captions.py,
  src/utils/reddit.py, src/utils/videomaker.py.

Modelling conventions:
* Python floats (audio durations, timestamps) are modelled as exact
  rationals ℚ; Python ints as ℤ/ℕ; Python strings as Lean String or
  List Char (each stage of the text pipeline works on List Char and is
  written to be kernel-evaluable on concrete inputs).
* Library calls whose behaviour the program relies on are modelled at the
  call sites with the semantics the call has on the data this program
  feeds it; each such model is documented at its definition.
* Effectful control flow (writing files, exiting) is modelled by explicit
  outcome values; the database (TinyDB of seen thread ids) is a list of
  the stored ids.
-/

/-! ## Text sanitisation (src/utils/helpers.py, sanitize_text, lines 56-94)

The sanitiser is a pipeline of substitutions.  Each regex substitution of
the source is implemented directly over `List Char` with Python `re`
semantics for that concrete pattern: the string is scanned left to right,
at each position the pattern's alternatives are tried in order (greedy
quantifiers first), a match is replaced and scanning resumes after it.
The character classes are the ASCII/`str` literals of the source; the
`\s`/`\d` classes are modelled by their ASCII parts (the inputs the claims
are settled on are within that range). -/

/-- Python `\s` on the ASCII range: space, tab, newline, carriage return,
vertical tab, form feed (helpers.py uses it in the age-indicator and
quote-spacing patterns, and via `str.split()` for whitespace collapsing). -/
def pyIsSpace (c : Char) : Bool :=
  c == ' ' || c == '\t' || c == '\n' || c == '\r' || c == Char.ofNat 11 || c == Char.ofNat 12

/-- Python `\d` on the ASCII range. -/
def isDigitC (c : Char) : Bool :=
  c.isDigit

/-- The class `[MFmf]` of the age/gender pattern (helpers.py line 77). -/
def isMF (c : Char) : Bool :=
  c == 'M' || c == 'F' || c == 'm' || c == 'f'

/-- The first alternative `\(\d+\s?[MFmf]\)` of the age/gender pattern
(helpers.py line 77) tried at the head of the input; `some suffix` is the
rest of the input after a match.  `\d+` is greedy, and shortening it can
never help (the following char would be a digit, matching neither `\s`
nor `[MFmf]`), so the maximal digit run is the only candidate. -/
def ageAlt1 : List Char → Option (List Char)
  | '(' :: cs1 =>
    if (cs1.takeWhile isDigitC).isEmpty then none else
    match cs1.dropWhile isDigitC with
    | c :: rest =>
      if pyIsSpace c then
        match rest with
        | c2 :: ')' :: rest3 => if isMF c2 then some rest3 else none
        | _ => none
      else if isMF c then
        match rest with
        | ')' :: rest2 => some rest2
        | _ => none
      else none
    | [] => none
  | _ => none

/-- The second alternative `\d+\s?[MFmf]` of the age/gender pattern
(helpers.py line 77) tried at the head of the input. -/
def ageAlt2 (cs : List Char) : Option (List Char) :=
  if (cs.takeWhile isDigitC).isEmpty then none else
  match cs.dropWhile isDigitC with
  | c :: rest =>
    if pyIsSpace c then
      match rest with
      | c2 :: rest2 => if isMF c2 then some rest2 else none
      | [] => none
    else if isMF c then some rest else none
  | [] => none

/-- Scan of `re.sub(r'\(\d+\s?[MFmf]\)|\d+\s?[MFmf]', '', result)`
(helpers.py line 77): at each position the paren alternative is tried
first, a match is deleted and scanning resumes after it.  The fuel is the
input length plus one; every step consumes at least one character, so the
fuel is never exhausted. -/
def ageSubF : Nat → List Char → List Char
  | 0, cs => cs
  | _ + 1, [] => []
  | fuel + 1, c :: cs =>
    match ageAlt1 (c :: cs) with
    | some suffix => ageSubF fuel suffix
    | none =>
      match ageAlt2 (c :: cs) with
      | some suffix => ageSubF fuel suffix
      | none => c :: ageSubF fuel cs

/-- The age/gender-indicator removal of helpers.py line 77. -/
def ageSub (cs : List Char) : List Char :=
  ageSubF (cs.length + 1) cs

/-- One step of Python `str.split()`: building the list of maximal
whitespace-free runs from the right. -/
def wordsStep (c : Char) (acc : List (List Char)) : List (List Char) :=
  if pyIsSpace c then [] :: acc
  else
    match acc with
    | [] => [[c]]
    | w :: ws => (c :: w) :: ws

/-- Runs (possibly empty) between whitespace characters. -/
def wordsAux (cs : List Char) : List (List Char) :=
  cs.foldr wordsStep [[]]

/-- Python `str.split()` with no argument: maximal nonempty runs of
non-whitespace characters (helpers.py lines 78 and 94). -/
def pyWords (cs : List Char) : List (List Char) :=
  (wordsAux cs).filter (fun w => !w.isEmpty)

/-- Python `' '.join(result.split())` (helpers.py lines 78 and 94):
collapse whitespace runs to single spaces and trim both ends. -/
def collapse (cs : List Char) : List Char :=
  List.intercalate [' '] (pyWords cs)

/-- Python `re.sub(r'/', ' or', result)` (helpers.py line 81): each slash
becomes the three characters space-o-r. -/
def orSub : List Char → List Char
  | [] => []
  | c :: cs => if c == '/' then ' ' :: 'o' :: 'r' :: orSub cs else c :: orSub cs

/-- The class `[a-zA-Z0-9\.\/\?\:@\-_=#]` of the URL pattern
(helpers.py line 84). -/
def clsA (c : Char) : Bool :=
  c.isAlpha || c.isDigit || [ '.', '/', '?', ':', '@', '-', '_', '=', '#'].contains c

/-- The class `[a-zA-Z0-9\.\&\/\?\:@\-_=#]` of the URL pattern
(helpers.py line 84). -/
def clsB (c : Char) : Bool :=
  clsA c || c == '&'

/-- The class `[a-zA-Z]`. -/
def isAZ (c : Char) : Bool :=
  c.isAlpha

/-
Backtracking matchers for the URL pattern, over `List Char`.  A matcher
maps an input to the list of possible remaining suffixes in Python's
preference order (greedy quantifiers longest first, alternatives left to
right); the scan below takes the first entry, which is the match Python's
`re` engine commits to.
-/

/-- Matcher for a single character of a class. -/
def mCls (p : Char → Bool) : List Char → List (List Char)
  | [] => []
  | c :: cs => if p c then [cs] else []

/-- Matcher for a literal string. -/
def mLit (lit : List Char) (cs : List Char) : List (List Char) :=
  if lit.isPrefixOf cs then [cs.drop lit.length] else []

/-- Sequencing of matchers, preference order preserved. -/
def mSeq (m1 m2 : List Char → List (List Char)) (cs : List Char) : List (List Char) :=
  (m1 cs).flatMap m2

/-- Alternation, left alternative preferred. -/
def mAlt (m1 m2 : List Char → List (List Char)) (cs : List Char) : List (List Char) :=
  m1 cs ++ m2 cs

/-- Greedy `?`: matching preferred over skipping. -/
def mOpt (m : List Char → List (List Char)) (cs : List Char) : List (List Char) :=
  m cs ++ [cs]

/-- Greedy `*` with fuel (the input length bounds the repetitions, as each
repetition must consume at least one character to be retained). -/
def mStarG (m : List Char → List (List Char)) : Nat → List Char → List (List Char)
  | 0, cs => [cs]
  | fuel + 1, cs =>
    (((m cs).filter (fun s => s.length < cs.length)).flatMap (mStarG m fuel)) ++ [cs]

/-- Greedy `+`: one occurrence then greedy `*`. -/
def mPlusG (m : List Char → List (List Char)) (fuel : Nat) (cs : List Char) : List (List Char) :=
  (m cs).flatMap (mStarG m fuel)

/-- Exactly `k` occurrences. -/
def mCount (m : List Char → List (List Char)) : Nat → List Char → List (List Char)
  | 0, cs => [cs]
  | k + 1, cs => (m cs).flatMap (mCount m k)

/-- Greedy `{2,6}`: six occurrences preferred down to two. -/
def mRep2to6 (m : List Char → List (List Char)) (cs : List Char) : List (List Char) :=
  mCount m 6 cs ++ mCount m 5 cs ++ mCount m 4 cs ++ mCount m 3 cs ++ mCount m 2 cs

/-- The prefix group `((http|https)\:\/\/)` of the URL pattern; the
alternative `http` is tried before `https`, backtracking into the group
when `://` then fails. -/
def protoM : List Char → List (List Char) :=
  mSeq (mAlt (mLit ['h', 't', 't', 'p']) (mLit ['h', 't', 't', 'p', 's']))
    (mLit [':', '/', '/'])

/-- The whole URL pattern of helpers.py line 84:
`((http|https)\:\/\/)?[a-zA-Z0-9\.\/\?\:@\-_=#]+\.([a-zA-Z]){2,6}([a-zA-Z0-9\.\&\/\?\:@\-_=#])*`. -/
def urlM (fuel : Nat) : List Char → List (List Char) :=
  mSeq (mOpt protoM)
    (mSeq (mPlusG (mCls clsA) fuel)
      (mSeq (mCls (fun c => c == '.'))
        (mSeq (mRep2to6 (mCls isAZ))
          (mStarG (mCls clsB) fuel))))

/-- The suffix left after the match Python's engine commits to at the head
of the input, if any (the pattern always consumes at least one character;
the filter enforces it). -/
def urlFirst (cs : List Char) : Option (List Char) :=
  match (urlM cs.length cs).filter (fun s => s.length < cs.length) with
  | [] => none
  | s :: _ => some s

/-- Scan of `re.sub(urlPattern, " ", result)` (helpers.py line 84): each
committed match is replaced by one space and scanning resumes after it.
Fuel as in `ageSubF`. -/
def urlSubF : Nat → List Char → List Char
  | 0, cs => cs
  | _ + 1, [] => []
  | fuel + 1, c :: cs =>
    match urlFirst (c :: cs) with
    | some suffix => ' ' :: urlSubF fuel suffix
    | none => c :: urlSubF fuel cs

/-- The URL removal of helpers.py line 84. -/
def urlSub (cs : List Char) : List Char :=
  urlSubF (cs.length + 1) cs

/-- The class `['|’]` of helpers.py line 87: straight apostrophe, pipe,
right single quotation mark. -/
def isApos (c : Char) : Bool :=
  c == Char.ofNat 39 || c == '|' || c == '’'

/-- The big character class of helpers.py line 87,
`[\^_~@!&;#:\-%—“”‘\"%\*/{}\[\]\(\)\\|<>=+]`. -/
def bigClass (c : Char) : Bool :=
  ['^', '_', '~', '@', '!', '&', ';', '#', ':', '-', '%', '—', '“', '”', '‘',
    Char.ofNat 34, '*', '/', Char.ofNat 123, Char.ofNat 125, '[', ']', '(', ')',
    Char.ofNat 92, '|', '<', '>', '='].contains c || c == '+'

/-- Scan of `re.sub(r"\s['|’]|['|’]\s|[class]", " ", result)`
(helpers.py line 87): at each position the space-then-quote alternative is
tried first, then quote-then-space, then the single-character class; a
match (two characters for the first two alternatives, one for the class)
is replaced by one space. -/
def spaceClass : List Char → List Char
  | [] => []
  | [c] => if bigClass c then [' '] else [c]
  | c1 :: c2 :: rest =>
    if pyIsSpace c1 && isApos c2 then ' ' :: spaceClass rest
    else if isApos c1 && pyIsSpace c2 then ' ' :: spaceClass rest
    else if bigClass c1 then ' ' :: spaceClass (c2 :: rest)
    else c1 :: spaceClass (c2 :: rest)

/-- Python `str.replace(target, rep)` for a one-character target
(helpers.py line 88 uses it twice): every occurrence is replaced. -/
def replaceChar (target : Char) (rep : List Char) : List Char → List Char
  | [] => []
  | c :: cs =>
    if c == target then rep ++ replaceChar target rep cs
    else c :: replaceChar target rep cs

/-- The pipeline of `sanitize_text` (helpers.py lines 56-94) over
`List Char`, with the two library stages that lie outside the regex model
passed in as functions: `md` is the Markdown-to-plain-text round trip of
lines 70-74 (`markdown`, `<pre>`/`<code>` removal, BeautifulSoup text
extraction) and `dem` is the `demojize(result, delimiters=("", ""))`
call of line 91.  The stage order is the source's: Markdown round trip,
age/gender-indicator removal (line 77), first whitespace collapse
(line 78), slash to " or" (line 81), URL removal (line 84), punctuation
spacing (line 87), the two `str.replace` calls of line 88, demojize
(line 91), final whitespace collapse (line 94).  The idempotence theorem
below quantifies over `md` and `dem`, so it holds whatever those two
library stages do — in particular for the real ones, which DO rewrite
Markdown-significant text (e.g. an ordered-list prefix or a code span)
and emoji. -/
def sanitizeCharsWith (md dem : List Char → List Char) (cs : List Char) : List Char :=
  collapse (dem (replaceChar '&' ['a', 'n', 'd'] (replaceChar '+' ['p', 'l', 'u', 's']
    (spaceClass (urlSub (orSub (collapse (ageSub (md cs)))))))))

/-- The Markdown-to-plain-text round trip of helpers.py lines 70-74 in
its plain-text case: on text containing no Markdown or HTML syntax the
round trip returns the input unchanged, and this definition is that
identity case.  It is applied only where that case is exact: the
concrete plain-ASCII inputs evaluated by the theorems below.  The
idempotence theorem does NOT use it — there the stage is an arbitrary
function, because the real round trip rewrites Markdown-significant
text. -/
def mdText (cs : List Char) : List Char :=
  cs

/-- The `demojize(result, delimiters=("", ""))` call of helpers.py
line 91 in its emoji-free case: emoji codepoints are replaced by their
(underscore-bearing) names and all other characters pass through, so on
emoji-free text it is the identity, and this definition is that identity
case.  It is applied only to the concrete emoji-free inputs evaluated by
the theorems below; the idempotence theorem abstracts the stage as an
arbitrary function instead. -/
def demoj (cs : List Char) : List Char :=
  cs

/-- The full body of `sanitize_text` (helpers.py lines 56-94) over
`List Char`: the pipeline instantiated at the plain-text and emoji-free
identity cases of the two library stages, exact for the concrete inputs
the theorems below evaluate. -/
def sanitizeChars (cs : List Char) : List Char :=
  sanitizeCharsWith mdText demoj cs

/-- helpers.py `sanitize_text`. -/
def sanitize_text (s : String) : String :=
  ⟨sanitizeChars s.data⟩

/-! ## Audio duration accounting (src/utils/helpers.py get_length,
src/main.py lines 142-167 and 92-123) -/

/-- helpers.py `get_length` (lines 115-137).  The `MP3(path)` read either
yields the audio length or raises; that outcome is the argument.  The
`except` branch prints the exception and returns `None` — modelled as
`none`. -/
def get_length (readResult : Except String ℚ) : Option ℚ :=
  match readResult with
  | Except.ok l => some l
  | Except.error _ => none

/-- The comments-mode acceptance loop of main.py lines 157-167, over the
comment durations in order.  State `cur` is `current_video_duration`;
a comment is appended when `cur + duration + pause <= target` and then
charges `duration + pause`; otherwise it is skipped and the loop moves to
the next comment (the source has no `break`).  Returns the accepted
durations in order and the final running total. -/
def acceptComments (target pause : ℚ) : ℚ → List ℚ → List ℚ × ℚ
  | cur, [] => ([], cur)
  | cur, d :: ds =>
    if cur + d + pause ≤ target then
      let r := acceptComments target pause (cur + d + pause) ds
      (d :: r.1, r.2)
    else
      acceptComments target pause cur ds

/-- The initial running total of comments mode (main.py lines 144-149):
`current_video_duration = 0` then `+= title_duration + pause`, before any
comment is examined. -/
def commentsInit (titleDuration pause : ℚ) : ℚ :=
  0 + (titleDuration + pause)

/-- The story-mode duration accumulation of main.py lines 92-101:
`total_video_duration = 0`, `+= title_duration + pause`, then `+= d` for
each body chunk duration `d`. -/
def story_total_video_duration (titleDuration pause : ℚ) (bodies : List ℚ) : ℚ :=
  bodies.foldl (fun acc d => acc + d) (0 + (titleDuration + pause))

/-- The `length` argument passed to `make_final_video` in story mode
(main.py line 121): `math.ceil(total_video_duration)`. -/
def story_length (titleDuration pause : ℚ) (bodies : List ℚ) : ℤ :=
  ⌈story_total_video_duration titleDuration pause bodies⌉

/-- Claimed from the spec, for comparison: title duration plus the chunk
durations plus `(number of chunks + 1)` pauses, rounded up. -/
def story_length_claimed (titleDuration pause : ℚ) (bodies : List ℚ) : ℤ :=
  ⌈titleDuration + bodies.sum + ((bodies.length : ℚ) + 1) * pause⌉

/-! ## Story-mode short-post skip (src/main.py lines 72-89, 190-193) -/

/-- Story-mode control flow for a fetched thread, abstracted to what it
produces: whether a video results, and the seen store afterwards.  The
body is `sanitize_text(thread.selftext)` (line 74); when its length is at
least 4000 the run proceeds to make the video and records the id at the
end (lines 190-193), otherwise it inserts the id and exits without a
video (lines 84-89).  TTS, thumbnail and file output are abstracted to
the Boolean. -/
def story_main (db : List String) (threadId : String) (selftext : String) : Bool × List String :=
  let body := sanitize_text selftext
  if 4000 ≤ body.length then (true, db ++ [threadId])
  else (false, db ++ [threadId])

/-! ## Captions (src/utils/captions.py lines 21-39,
src/utils/videomaker.py lines 106-115) -/

/-- Python `str.strip()` on the ASCII whitespace range: drop whitespace
from both ends. -/
def stripChars (cs : List Char) : List Char :=
  ((((cs.dropWhile pyIsSpace).reverse).dropWhile pyIsSpace).reverse)

/-- `str.strip()` on strings (captions.py line 37). -/
def pyStrip (s : String) : String :=
  ⟨stripChars s.data⟩

/-- captions.py `format_captions_whisper` (lines 21-39): each transcription
fragment `(start, end, text)` becomes `(start, end, text.strip())`, in
order. -/
def format_captions_whisper (segments : List (ℚ × ℚ × String)) : List (ℚ × ℚ × String) :=
  segments.map (fun f => (f.1, f.2.1, pyStrip f.2.2))

/-- The caption alignment loop of videomaker.py lines 108-115.  A segment
is a body audio clip: its duration (`audio_clips[i].duration`) paired with
its transcription fragments.  `total` is `total_duration`, starting at 0;
each segment's formatted captions are shifted by the current `total`, then
`total` advances by the segment's duration. -/
def make_captions : ℚ → List (ℚ × List (ℚ × ℚ × String)) → List (ℚ × ℚ × String)
  | _, [] => []
  | total, seg :: rest =>
    ((format_captions_whisper seg.2).map (fun f => (f.1 + total, f.2.1 + total, f.2.2)))
      ++ make_captions (total + seg.1) rest

/-- Cumulative durations of prior segments: element `k` is `t` plus the
sum of the first `k` durations. -/
def priorSums (t : ℚ) : List ℚ → List ℚ
  | [] => []
  | d :: ds => t :: priorSums (t + d) ds

/-- Claimed from the spec, for comparison: one output interval per input
fragment, in order, text trimmed, start and end shifted by exactly the
cumulative duration of all prior segments. -/
def aligned_claimed (segs : List (ℚ × List (ℚ × ℚ × String))) : List (ℚ × ℚ × String) :=
  ((priorSums 0 (segs.map (fun s => s.1))).zip segs).flatMap
    (fun x => x.2.2.map (fun f => (f.1 + x.1, f.2.1 + x.1, pyStrip f.2.2)))

/-! ## Thread selection and deduplication (src/utils/reddit.py lines
37-69, src/main.py lines 190-193) -/

/-- A candidate thread: its id and score (the fields `get_thread` reads). -/
structure RThread where
  id : String
  score : ℤ
deriving DecidableEq

/-- Stable descending insertion by score: a thread goes before the first
thread whose score is at most its own, so earlier pool positions stay
first among equal scores — the result `sorted(threads, key=score,
reverse=True)` (reddit.py line 55) produces, by a structurally recursive
(hence kernel-evaluable) stable sort. -/
def insertDesc (t : RThread) : List RThread → List RThread
  | [] => [t]
  | u :: us => if u.score ≤ t.score then t :: u :: us else u :: insertDesc t us

/-- The sorted candidate list of reddit.py line 55. -/
def sortDesc : List RThread → List RThread
  | [] => []
  | t :: ts => insertDesc t (sortDesc ts)

/-- reddit.py `get_thread` (lines 37-69): the first thread of the
score-sorted pool whose id the database search does not find
(`db.search(Query().id == str(thread.id))` is empty), if any.  The seen
store is the list of stored ids. -/
def get_thread (db : List String) (pool : List RThread) : Option RThread :=
  (sortDesc pool).find? (fun t => !(db.contains t.id))

/-- The end of a completed run (main.py lines 190-193):
`db.insert({'id': thread.id, 'title': thread.title})`. -/
def recordSeen (db : List String) (t : RThread) : List String :=
  db ++ [t.id]

/-! ## Background preparation (src/utils/videomaker.py lines 36-53) -/

/-- The value `int(video_duration - length)` of videomaker.py line 42, the
upper bound handed to `random.randint(0, ·)`.  For the exact rational
duration `D = D.num / D.den` and integer target length `L`, Python's
`int()` truncation toward zero of `D - L = (D.num - L*D.den) / D.den` is
`Int.tdiv` of numerator by denominator. -/
def randintMax (D : ℚ) (L : ℤ) : ℤ :=
  Int.tdiv (D.num - L * D.den) (D.den : ℤ)

/-- Whether videomaker.py line 42 raises: `random.randint(0, m)` raises
`ValueError` exactly when `m < 0`, and otherwise returns some integer
`0 ≤ s ≤ m`. -/
def prepare_background_raises (D : ℚ) (L : ℤ) : Bool :=
  randintMax D L < 0

/-! # Theorems -/

/-! ## Comments-mode acceptance loop (claims C1, C10) -/

/-- Unfolding equation for one step of the acceptance loop. -/
theorem acceptComments_cons (T p cur d : ℚ) (ds : List ℚ) :
    acceptComments T p cur (d :: ds) =
      if cur + d + p ≤ T then
        (d :: (acceptComments T p (cur + d + p) ds).1, (acceptComments T p (cur + d + p) ds).2)
      else acceptComments T p cur ds := rfl

/-- The accepted durations are a subsequence of the input: the loop never
reorders and never revisits. -/
theorem acceptComments_sublist (T p : ℚ) :
    ∀ (ds : List ℚ) (cur : ℚ), ((acceptComments T p cur ds).1).Sublist ds := by
  intro ds
  induction ds with
  | nil => intro cur; simp [acceptComments]
  | cons d ds ih =>
    intro cur
    rw [acceptComments_cons]
    split
    · exact List.Sublist.cons₂ d (ih (cur + d + p))
    · exact List.Sublist.cons d (ih cur)

/-- The final running total is the initial one plus, for each accepted
comment, its duration plus one pause. -/
theorem acceptComments_snd (T p : ℚ) :
    ∀ (ds : List ℚ) (cur : ℚ),
      (acceptComments T p cur ds).2 =
        cur + ((acceptComments T p cur ds).1.sum + ((acceptComments T p cur ds).1.length : ℚ) * p) := by
  intro ds
  induction ds with
  | nil => intro cur; simp [acceptComments]
  | cons d ds ih =>
    intro cur
    rw [acceptComments_cons]
    split
    · simp only [List.sum_cons, List.length_cons]
      rw [ih (cur + d + p)]
      push_cast
      ring
    · exact ih cur

/-- The running total never exceeds the target once it starts at or below
it: each acceptance is guarded by the budget check. -/
theorem acceptComments_le (T p : ℚ) :
    ∀ (ds : List ℚ) (cur : ℚ), cur ≤ T → (acceptComments T p cur ds).2 ≤ T := by
  intro ds
  induction ds with
  | nil => intro cur h; simpa [acceptComments] using h
  | cons d ds ih =>
    intro cur h
    rw [acceptComments_cons]
    split
    · exact ih (cur + d + p) (by assumption)
    · exact ih cur h

/-- Shifting the initial total and the target together does not change
which comments are accepted. -/
theorem acceptComments_shift (T p δ : ℚ) :
    ∀ (ds : List ℚ) (cur : ℚ),
      (acceptComments T p cur ds).1 = (acceptComments (T - δ) p (cur - δ) ds).1 := by
  intro ds
  induction ds with
  | nil => intro cur; simp [acceptComments]
  | cons d ds ih =>
    intro cur
    rw [acceptComments_cons, acceptComments_cons]
    have hguard : (cur + d + p ≤ T) ↔ (cur - δ + d + p ≤ T - δ) := by constructor <;> intro <;> linarith
    by_cases hc : cur + d + p ≤ T
    · rw [if_pos hc, if_pos (hguard.mp hc)]
      show d :: (acceptComments T p (cur + d + p) ds).1
          = d :: (acceptComments (T - δ) p (cur - δ + d + p) ds).1
      rw [ih (cur + d + p)]
      have harg : cur + d + p - δ = cur - δ + d + p := by ring
      rw [harg]
    · rw [if_neg hc, if_neg (fun hcontra => hc (hguard.mpr hcontra))]
      exact ih cur

/-- C1 counterexample: the acceptance pass does not stop at the first
overflowing comment.  With target 10, pause 1 and the running total at 2,
the first comment (duration 20) overflows, yet the next comment
(duration 5) is still accepted — the claim predicts that it and
everything after the overflow are dropped. -/
theorem comments_loop_continues_after_overflow_cex :
    ((2:ℚ) + 20 + 1 > 10) ∧ (acceptComments 10 1 2 [20, 5]).1 = [5] := by
  constructor
  · norm_num
  · rw [acceptComments_cons, if_neg (by norm_num), acceptComments_cons, if_pos (by norm_num)]
    simp [acceptComments]

/-- C1 (amended): in comments mode, over the ordered comment durations, a
comment is accepted exactly when the running total plus its duration plus
the pause stays within the target; a rejected comment is skipped but the
single forward pass continues with the later comments, so the accepted
comments form a subsequence of the input in original order, each accepted
comment charges its duration plus one pause, and the running total never
exceeds the target once it starts at or below it. -/
theorem comments_loop_single_pass_budget (T p cur : ℚ) (ds : List ℚ) (h : cur ≤ T) :
    ((acceptComments T p cur ds).1).Sublist ds ∧
    (acceptComments T p cur ds).2 =
      cur + ((acceptComments T p cur ds).1.sum + ((acceptComments T p cur ds).1.length : ℚ) * p) ∧
    (acceptComments T p cur ds).2 ≤ T := by
  exact ⟨acceptComments_sublist T p ds cur, acceptComments_snd T p ds cur, acceptComments_le T p ds cur h⟩

/-- C1 witness: the amended statement at target 10, pause 1, initial
total 2 and durations [3, 20]. -/
theorem comments_loop_single_pass_budget_witness :
    ((acceptComments 10 1 2 [3, 20]).1).Sublist [3, 20] ∧
    (acceptComments 10 1 2 [3, 20]).2 =
      2 + ((acceptComments 10 1 2 [3, 20]).1.sum + ((acceptComments 10 1 2 [3, 20]).1.length : ℚ) * 1) ∧
    (acceptComments 10 1 2 [3, 20]).2 ≤ 10 :=
  comments_loop_single_pass_budget 10 1 2 [3, 20] (by norm_num)

/-- C10: in comments mode the running total starts at the title duration
plus one pause before any comment is examined (the title is charged to
the budget exactly once), so the loop accepts exactly the comments a run
with budget `target - title - pause` and initial total 0 would accept;
and each accepted comment adds exactly its own duration plus one pause. -/
theorem comments_budget_title_charged_once (T p title : ℚ) (ds : List ℚ) :
    commentsInit title p = title + p ∧
    (acceptComments T p (commentsInit title p) ds).1 =
      (acceptComments (T - (title + p)) p 0 ds).1 ∧
    (acceptComments T p (commentsInit title p) ds).2 =
      commentsInit title p +
        ((acceptComments T p (commentsInit title p) ds).1.sum +
          ((acceptComments T p (commentsInit title p) ds).1.length : ℚ) * p) := by
  refine ⟨by simp [commentsInit], ?_, acceptComments_snd T p ds (commentsInit title p)⟩
  have h := acceptComments_shift T p (title + p) ds (commentsInit title p)
  rw [h]
  have harg : commentsInit title p - (title + p) = 0 := by simp [commentsInit]
  rw [harg]

/-! ## Story-mode total duration (claim C5) -/

/-- Left fold of addition is adding the sum. -/
theorem foldl_add_eq_add_sum : ∀ (l : List ℚ) (a : ℚ), l.foldl (fun acc d => acc + d) a = a + l.sum := by
  intro l
  induction l with
  | nil => intro a; simp
  | cons d ds ih => intro a; simp only [List.foldl_cons, List.sum_cons, ih]; ring

/-- C5 (amended): the `length` passed to composition in story mode is the
title duration plus ONE pause plus the sum of the body chunk durations,
rounded up to the nearest whole second — only the single pause charged
with the title appears, no per-chunk pauses. -/
theorem story_length_formula (titleDuration pause : ℚ) (bodies : List ℚ) :
    story_length titleDuration pause bodies = ⌈titleDuration + pause + bodies.sum⌉ := by
  unfold story_length story_total_video_duration
  rw [foldl_add_eq_add_sum]
  congr 1
  ring

/-- C5 counterexample: with title duration 1, pause 2 and one body chunk
of duration 1, the code passes ceil(1 + 2 + 1) = 4, while the claimed
formula title + chunks + (chunks+1)·pause gives ceil(1 + 1 + 2·2) = 6. -/
theorem story_length_single_pause_cex :
    story_length 1 2 [1] = 4 ∧ story_length_claimed 1 2 [1] = 6 ∧
    story_length 1 2 [1] ≠ story_length_claimed 1 2 [1] := by
  refine ⟨?_, ?_, ?_⟩ <;>
    norm_num [story_length, story_total_video_duration, story_length_claimed]

/-! ## Duration retrieval failure (claim C9) -/

/-- C9: when the MP3 read raises (missing or corrupt file), `get_length`
swallows the exception and returns the absent value `none` (Python
`None`), which the caller then feeds into duration arithmetic — no
distinguishable failure is surfaced, contradicting the claim (the spec
itself flags this as a latent bug). -/
theorem get_length_error_returns_none (msg : String) :
    get_length (Except.error msg) = none := rfl

/-! ## Story-mode short-post skip (claim C8) -/

/-- C8: when the sanitized body is shorter than the 4000-character
threshold, the story-mode run produces no video and the thread id is
recorded in the seen store — a normal skip, so the thread is never
retried. -/
theorem story_short_skip_records (db : List String) (threadId selftext : String)
    (h : (sanitize_text selftext).length < 4000) :
    story_main db threadId selftext = (false, db ++ [threadId]) ∧
    threadId ∈ (story_main db threadId selftext).2 := by
  have hlt : ¬ (4000 ≤ (sanitize_text selftext).length) := by omega
  constructor
  · simp only [story_main, if_neg hlt]
  · simp only [story_main, if_neg hlt]
    simp

/-- C8 witness: a 9-character post is skipped and its id recorded. -/
theorem story_short_skip_records_witness :
    story_main ["old"] "t3_ab" "tiny post" = (false, ["old"] ++ ["t3_ab"]) ∧
    "t3_ab" ∈ (story_main ["old"] "t3_ab" "tiny post").2 :=
  story_short_skip_records ["old"] "t3_ab" "tiny post" (by decide)

/-! ## Thread deduplication (claim C6) -/

/-- C6: a thread returned by `get_thread` never carries an id already in
the seen store, and a completed run records the chosen thread's id into
the store — so a second selection pass over the same pool cannot return
it again. -/
theorem get_thread_dedup_and_record (db : List String) (pool : List RThread) (t : RThread)
    (h : get_thread db pool = some t) :
    t.id ∉ db ∧ t.id ∈ recordSeen db t := by
  constructor
  · have hp := List.find?_some h
    simp only [Bool.not_eq_true'] at hp
    intro hmem
    rw [show (db.contains t.id) = db.elem t.id from rfl, List.elem_eq_true_of_mem hmem] at hp
    simp at hp
  · simp [recordSeen]

/-- C6 witness: with id "a" already seen, the selection over a pool
holding "a" (score 5) and "b" (score 3) returns the thread "b", whose id
is not in the store and is recorded afterwards. -/
theorem get_thread_dedup_and_record_witness :
    (RThread.mk "b" 3).id ∉ ["a"] ∧
    (RThread.mk "b" 3).id ∈ recordSeen ["a"] (RThread.mk "b" 3) :=
  get_thread_dedup_and_record ["a"] [RThread.mk "a" 5, RThread.mk "b" 3] (RThread.mk "b" 3)
    (by decide)

/-! ## Caption alignment (claim C4) -/

/-- The alignment loop in closed form: with running offset `t`, each
segment's fragments are emitted in order, one output per fragment, text
stripped, shifted by the cumulative duration of the prior segments. -/
theorem make_captions_eq_shifted (segs : List (ℚ × List (ℚ × ℚ × String))) :
    ∀ t : ℚ,
      make_captions t segs =
        ((priorSums t (segs.map (fun s => s.1))).zip segs).flatMap
          (fun x => x.2.2.map (fun f => (f.1 + x.1, f.2.1 + x.1, pyStrip f.2.2))) := by
  induction segs with
  | nil => intro t; simp [make_captions, priorSums]
  | cons seg rest ih =>
    intro t
    simp only [make_captions, List.map_cons, priorSums, List.zip_cons_cons, List.flatMap_cons]
    rw [ih (t + seg.1)]
    simp [format_captions_whisper, List.map_map, Function.comp]

/-- One output interval per input fragment. -/
theorem make_captions_length (segs : List (ℚ × List (ℚ × ℚ × String))) :
    ∀ t : ℚ, (make_captions t segs).length = (segs.map (fun s => s.2.length)).sum := by
  induction segs with
  | nil => intro t; simp [make_captions]
  | cons seg rest ih =>
    intro t
    simp [make_captions, format_captions_whisper, ih (t + seg.1)]

/-- C4: the caption aligner trims each fragment's text, shifts each
fragment by exactly the cumulative duration of all prior segments,
preserves fragment order and emits exactly one interval per fragment
(the code's loop equals the claimed closed form), and on the claim's
example — segment of duration 3 with fragment (0,2,"hi") followed by a
segment with fragment (0,1,"bye") — produces [(0,2,"hi"), (3,4,"bye")]. -/
theorem captions_trim_shift_order (segs : List (ℚ × List (ℚ × ℚ × String))) :
    make_captions 0 segs = aligned_claimed segs ∧
    (make_captions 0 segs).length = (segs.map (fun s => s.2.length)).sum ∧
    make_captions 0 [(3, [(0, 2, "hi")]), (1, [(0, 1, "bye")])] =
      [(0, 2, "hi"), ((3 : ℚ), (4 : ℚ), "bye")] := by
  refine ⟨by rw [make_captions_eq_shifted segs 0]; rfl, make_captions_length segs 0, ?_⟩
  have h1 : pyStrip "hi" = "hi" := by decide
  have h2 : pyStrip "bye" = "bye" := by decide
  simp only [make_captions, format_captions_whisper, List.map_cons, List.map_nil, h1, h2]
  norm_num

/-! ## Background start selection (claim C7) -/

/-- The numerator of `D - L` over denominator `D.den`, cast to ℚ. -/
theorem randintMax_num_cast (D : ℚ) (L : ℤ) :
    ((D.num - L * (D.den : ℤ) : ℤ) : ℚ) = (D - (L : ℚ)) * (D.den : ℚ) := by
  have hden : ((D.den : ℚ)) ≠ 0 := by
    have := D.den_pos
    positivity
  have hnum : (D.num : ℚ) = D * (D.den : ℚ) := by
    have h := Rat.num_div_den D
    rw [div_eq_iff hden] at h
    exact h
  push_cast
  rw [hnum]
  ring

/-- `int(video_duration - length)` is nonnegative exactly when the asset
is at least as long as the target, and in that case it is at most
`D - L`. -/
theorem randintMax_le_sub (D : ℚ) (L : ℤ) (hD : (L : ℚ) ≤ D) :
    ((randintMax D L : ℤ) : ℚ) ≤ D - (L : ℚ) := by
  have hdenQ : (0 : ℚ) < (D.den : ℚ) := by
    have := D.den_pos
    positivity
  have hbZ : (0 : ℤ) < (D.den : ℤ) := by exact_mod_cast D.den_pos
  have ha : (0 : ℤ) ≤ D.num - L * (D.den : ℤ) := by
    have : (0 : ℚ) ≤ (D - (L : ℚ)) * (D.den : ℚ) := by
      have : (0 : ℚ) ≤ D - (L : ℚ) := by linarith
      positivity
    rw [← randintMax_num_cast] at this
    exact_mod_cast this
  have htdiv : randintMax D L = (D.num - L * (D.den : ℤ)) / (D.den : ℤ) := by
    unfold randintMax
    exact Int.tdiv_eq_ediv ha (le_of_lt hbZ)
  have hmul : randintMax D L * (D.den : ℤ) ≤ D.num - L * (D.den : ℤ) := by
    rw [htdiv]
    exact (Int.le_ediv_iff_mul_le hbZ).mp (le_refl _)
  have hmulQ : ((randintMax D L : ℤ) : ℚ) * (D.den : ℚ) ≤ (D - (L : ℚ)) * (D.den : ℚ) := by
    rw [← randintMax_num_cast]
    exact_mod_cast hmul
  exact le_of_mul_le_mul_right hmulQ hdenQ

/-- `random.randint(0, int(D - L))` raises (bound below zero) exactly when
`D ≤ L - 1`; in the fractional band `L - 1 < D < L` the bound truncates
to zero and the call succeeds. -/
theorem randintMax_neg_iff (D : ℚ) (L : ℤ) :
    randintMax D L < 0 ↔ D ≤ (L : ℚ) - 1 := by
  have hdenQ : (0 : ℚ) < (D.den : ℚ) := by
    have := D.den_pos
    positivity
  have hbZ : (0 : ℤ) < (D.den : ℤ) := by exact_mod_cast D.den_pos
  set a : ℤ := D.num - L * (D.den : ℤ) with ha_def
  have hcast : ((a : ℤ) : ℚ) = (D - (L : ℚ)) * (D.den : ℚ) := randintMax_num_cast D L
  have key : a ≤ -(D.den : ℤ) ↔ D ≤ (L : ℚ) - 1 := by
    constructor
    · intro h
      have hq : ((a : ℤ) : ℚ) ≤ -(D.den : ℚ) := by exact_mod_cast h
      rw [hcast] at hq
      nlinarith
    · intro h
      have hq : (D - (L : ℚ)) * (D.den : ℚ) ≤ -(D.den : ℚ) := by nlinarith
      rw [← hcast] at hq
      exact_mod_cast hq
  rw [← key]
  unfold randintMax
  rw [← ha_def]
  rcases le_or_lt 0 a with h0 | h0
  · constructor
    · intro h
      exact absurd (Int.tdiv_nonneg h0 (le_of_lt hbZ)) (not_le.mpr h)
    · intro h
      omega
  · have hneg : a.tdiv (D.den : ℤ) = -((-a).tdiv (D.den : ℤ)) := by
      rw [show a = -(-a) from by ring, Int.neg_tdiv, neg_neg]
    rw [hneg]
    have hediv : (-a).tdiv (D.den : ℤ) = (-a) / (D.den : ℤ) :=
      Int.tdiv_eq_ediv (by omega) (le_of_lt hbZ)
    rw [hediv]
    constructor
    · intro h
      have h1 : 1 ≤ (-a) / (D.den : ℤ) := by omega
      have := (Int.le_ediv_iff_mul_le hbZ).mp h1
      omega
    · intro h
      have h1 : 1 * (D.den : ℤ) ≤ -a := by omega
      have := (Int.le_ediv_iff_mul_le hbZ).mpr h1
      omega

/-- C7 (amended): whenever the background asset duration `D` is at least
the target length `L`, every start `s` that `random.randint(0,
int(D - L))` can return satisfies `0 ≤ s` and `s + L ≤ D`; but the call
raises exactly when `D ≤ L - 1`, not whenever `D < L` — in the band
`L - 1 < D < L` it succeeds with start 0 (an invalid subclip) instead of
failing deterministically. -/
theorem prepare_background_start_valid (D : ℚ) (L r : ℤ)
    (hD : (L : ℚ) ≤ D) (hr0 : 0 ≤ r) (hrm : r ≤ randintMax D L) :
    (0 ≤ r ∧ (r : ℚ) + (L : ℚ) ≤ D) ∧
    (prepare_background_raises D L = true ↔ D ≤ (L : ℚ) - 1) := by
  refine ⟨⟨hr0, ?_⟩, ?_⟩
  · have h1 : ((r : ℤ) : ℚ) ≤ ((randintMax D L : ℤ) : ℚ) := by exact_mod_cast hrm
    have h2 := randintMax_le_sub D L hD
    linarith
  · simp only [prepare_background_raises, decide_eq_true_eq]
    exact randintMax_neg_iff D L

/-- C7 witness: the amended statement at asset duration 20, target length
10 and start 3. -/
theorem prepare_background_start_valid_witness :
    ((0 : ℤ) ≤ 3 ∧ ((3 : ℤ) : ℚ) + ((10 : ℤ) : ℚ) ≤ 20) ∧
    (prepare_background_raises 20 10 = true ↔ (20 : ℚ) ≤ ((10 : ℤ) : ℚ) - 1) :=
  prepare_background_start_valid 20 10 3 (by norm_num) (by norm_num) (by decide)

/-- C7 counterexample: with asset duration 19/2 and target length 10 the
asset is shorter than the target, yet `randint(0, int(19/2 - 10)) =
randint(0, 0)` does not raise; its only possible start 0 violates
`start + length ≤ duration`. -/
theorem prepare_background_fractional_gap_cex :
    ((19 : ℚ)/2 < ((10 : ℤ) : ℚ)) ∧
    prepare_background_raises ((19 : ℚ)/2) 10 = false ∧
    0 ≤ randintMax ((19 : ℚ)/2) 10 ∧
    ¬ ((0 : ℚ) + ((10 : ℤ) : ℚ) ≤ (19 : ℚ)/2) := by
  have hiff := randintMax_neg_iff ((19 : ℚ)/2) 10
  have hnot : ¬ ((19 : ℚ)/2 ≤ ((10 : ℤ) : ℚ) - 1) := by norm_num
  have h0 : ¬ (randintMax ((19 : ℚ)/2) 10 < 0) := fun h => hnot (hiff.mp h)
  refine ⟨by norm_num, ?_, by omega, by norm_num⟩
  simp only [prepare_background_raises, decide_eq_false_iff_not]
  exact h0

/-! ## Whitespace collapsing (supporting claims C2, C3) -/

/-- The accumulator of the split fold is never empty. -/
theorem wordsAux_ne_nil : ∀ cs : List Char, wordsAux cs ≠ [] := by
  intro cs
  induction cs with
  | nil => simp [wordsAux]
  | cons c cs ih =>
    show wordsStep c (wordsAux cs) ≠ []
    unfold wordsStep
    split
    · simp
    · match haux : wordsAux cs with
      | [] => simp
      | w :: ws => simp

/-- Every run produced by the split fold is whitespace-free. -/
theorem wordsAux_no_space :
    ∀ cs : List Char, ∀ w ∈ wordsAux cs, ∀ c ∈ w, pyIsSpace c = false := by
  intro cs
  induction cs with
  | nil =>
    intro w hw c hc
    simp [wordsAux] at hw
    subst hw
    simp at hc
  | cons c0 cs ih =>
    intro w hw c hc
    have hw' : w ∈ wordsStep c0 (wordsAux cs) := hw
    unfold wordsStep at hw'
    by_cases hsp : pyIsSpace c0
    · rw [if_pos hsp] at hw'
      rcases List.mem_cons.mp hw' with h | h
      · subst h; simp at hc
      · exact ih w h c hc
    · rw [if_neg hsp] at hw'
      match haux : wordsAux cs with
      | [] => exact absurd haux (wordsAux_ne_nil cs)
      | w0 :: ws =>
        rw [haux] at hw'
        rcases List.mem_cons.mp hw' with h | h
        · subst h
          rcases List.mem_cons.mp hc with h' | h'
          · subst h'; exact Bool.eq_false_iff.mpr hsp
          · exact ih w0 (by rw [haux]; exact List.mem_cons_self w0 ws) c h'
        · exact ih w (by rw [haux]; exact List.mem_cons_of_mem w0 h) c hc

/-- The words of a string are nonempty. -/
theorem pyWords_ne_nil (cs : List Char) : ∀ w ∈ pyWords cs, w ≠ [] := by
  intro w hw
  have := List.of_mem_filter hw
  simpa [List.isEmpty_iff] using this

/-- The words of a string are whitespace-free. -/
theorem pyWords_no_space (cs : List Char) : ∀ w ∈ pyWords cs, ∀ c ∈ w, pyIsSpace c = false :=
  fun w hw => wordsAux_no_space cs w (List.mem_of_mem_filter hw)

/-- Prepending a whitespace-free run extends the head word. -/
theorem wordsAux_append_nospace :
    ∀ (w : List Char) (cs : List Char) (h : List Char) (t : List (List Char)),
      (∀ c ∈ w, pyIsSpace c = false) → wordsAux cs = h :: t →
      wordsAux (w ++ cs) = (w ++ h) :: t := by
  intro w
  induction w with
  | nil => intro cs h t _ haux; simpa using haux
  | cons c w' ih =>
    intro cs h t hns haux
    have hc : pyIsSpace c = false := hns c (List.mem_cons_self c w')
    have hw' : ∀ c' ∈ w', pyIsSpace c' = false := fun c' hc' => hns c' (List.mem_cons_of_mem c hc')
    show wordsStep c (wordsAux (w' ++ cs)) = ((c :: w') ++ h) :: t
    rw [ih cs h t hw' haux]
    unfold wordsStep
    rw [if_neg (by simp [hc])]
    rfl

/-- A leading whitespace character closes the head word. -/
theorem wordsAux_space (cs : List Char) : wordsAux (' ' :: cs) = [] :: wordsAux cs := by
  show wordsStep ' ' (wordsAux cs) = [] :: wordsAux cs
  unfold wordsStep
  rw [if_pos (by decide)]

/-- Splitting a space-joined list of nonempty whitespace-free words gives
the words back. -/
theorem pyWords_intercalate :
    ∀ ws : List (List Char), (∀ w ∈ ws, w ≠ []) →
      (∀ w ∈ ws, ∀ c ∈ w, pyIsSpace c = false) →
      pyWords (List.intercalate [' '] ws) = ws := by
  intro ws
  induction ws with
  | nil => intro _ _; decide
  | cons w rest ih =>
    intro hne hns
    have hwne : w ≠ [] := hne w (List.mem_cons_self w rest)
    have hwns : ∀ c ∈ w, pyIsSpace c = false := hns w (List.mem_cons_self w rest)
    match rest with
    | [] =>
      have h1 : List.intercalate [' '] [w] = w := by
        simp [List.intercalate, List.intersperse]
      rw [h1]
      have h2 : wordsAux (w ++ []) = (w ++ []) :: [] :=
        wordsAux_append_nospace w [] [] [] hwns (by simp [wordsAux])
      simp only [List.append_nil] at h2
      unfold pyWords
      rw [h2]
      simp [hwne]
    | w2 :: rest2 =>
      have h1 : List.intercalate [' '] (w :: w2 :: rest2) =
          w ++ ' ' :: List.intercalate [' '] (w2 :: rest2) := by
        simp [List.intercalate, List.intersperse]
      rw [h1]
      have h2 : wordsAux (' ' :: List.intercalate [' '] (w2 :: rest2)) =
          [] :: wordsAux (List.intercalate [' '] (w2 :: rest2)) :=
        wordsAux_space _
      have h3 : wordsAux (w ++ ' ' :: List.intercalate [' '] (w2 :: rest2)) =
          (w ++ []) :: wordsAux (List.intercalate [' '] (w2 :: rest2)) :=
        wordsAux_append_nospace w _ [] _ hwns h2
      simp only [List.append_nil] at h3
      unfold pyWords
      rw [h3]
      have ihrest := ih (fun u hu => hne u (List.mem_cons_of_mem w hu))
        (fun u hu => hns u (List.mem_cons_of_mem w hu))
      unfold pyWords at ihrest
      have hkeep : (!w.isEmpty) = true := by simp [List.isEmpty_iff, hwne]
      simp only [List.filter_cons, hkeep, if_true]
      rw [ihrest]

/-- Whitespace collapsing is idempotent. -/
theorem collapse_idem (cs : List Char) : collapse (collapse cs) = collapse cs := by
  show collapse (List.intercalate [' '] (pyWords cs)) = collapse cs
  unfold collapse
  rw [pyWords_intercalate (pyWords cs) (pyWords_ne_nil cs) (pyWords_no_space cs)]

/-! ## The punctuation-spacing pass (supporting claims C2, C3) -/

/-- The punctuation-spacing pass never lengthens the string. -/
theorem spaceClass_length : ∀ cs : List Char, (spaceClass cs).length ≤ cs.length
  | [] => by simp [spaceClass]
  | [c] => by by_cases h : bigClass c <;> simp [spaceClass, h]
  | c1 :: c2 :: rest => by
    have hr := spaceClass_length rest
    have hcr := spaceClass_length (c2 :: rest)
    by_cases h1 : (pyIsSpace c1 && isApos c2) = true
    · simp only [spaceClass, h1, if_true, List.length_cons]
      simp only [List.length_cons] at hcr ⊢
      omega
    · by_cases h2 : (isApos c1 && pyIsSpace c2) = true
      · simp only [spaceClass, h1, h2, if_true, Bool.false_eq_true, if_false, List.length_cons]
        simp only [List.length_cons] at hcr ⊢
        omega
      · by_cases h3 : bigClass c1 = true
        · simp only [spaceClass, h1, h2, h3, if_true, Bool.false_eq_true, if_false,
            List.length_cons]
          simp only [List.length_cons] at hcr ⊢
          omega
        · simp only [spaceClass, h1, h2, h3, Bool.false_eq_true, if_false, List.length_cons]
          simp only [List.length_cons] at hcr ⊢
          omega

/-- A fixed point of the punctuation-spacing pass contains no character of
the big class: any such character would have been turned into a space. -/
theorem spaceClass_fix_no_bad :
    ∀ cs : List Char, spaceClass cs = cs → ∀ c ∈ cs, bigClass c = false
  | [] => by intro _ c hc; simp at hc
  | [c] => by
    intro h c' hc'
    simp only [List.mem_singleton] at hc'
    subst hc'
    by_cases hb : bigClass c' = true
    · exfalso
      simp only [spaceClass, hb, if_true] at h
      have hsp : ' ' = c' := by simpa using h
      rw [← hsp] at hb
      exact absurd hb (by decide)
    · simpa using hb
  | c1 :: c2 :: rest => by
    intro h c' hc'
    have hlenr := spaceClass_length rest
    have hlencr := spaceClass_length (c2 :: rest)
    by_cases h1 : (pyIsSpace c1 && isApos c2) = true
    · exfalso
      simp only [spaceClass, h1, if_true] at h
      have hl := congrArg List.length h
      simp only [List.length_cons] at hl
      omega
    · by_cases h2 : (isApos c1 && pyIsSpace c2) = true
      · exfalso
        simp only [spaceClass, h1, h2, if_true, Bool.false_eq_true, if_false] at h
        have hl := congrArg List.length h
        simp only [List.length_cons] at hl
        omega
      · by_cases h3 : bigClass c1 = true
        · exfalso
          simp only [spaceClass, h1, h2, h3, if_true, Bool.false_eq_true, if_false] at h
          have hh : ' ' = c1 := (List.cons.injEq _ _ _ _ ▸ h).1
          rw [← hh] at h3
          exact absurd h3 (by decide)
        · simp only [spaceClass, h1, h2, h3, Bool.false_eq_true, if_false] at h
          have ht : spaceClass (c2 :: rest) = c2 :: rest := (List.cons.injEq _ _ _ _ ▸ h).2
          rcases List.mem_cons.mp hc' with heq | hmem
          · subst heq; simpa using h3
          · exact spaceClass_fix_no_bad (c2 :: rest) ht c' hmem

/-- The slash substitution is the identity on slash-free strings. -/
theorem orSub_eq_self : ∀ cs : List Char, (∀ c ∈ cs, (c == '/') = false) → orSub cs = cs
  | [] => by intro _; rfl
  | c :: cs => by
    intro h
    have hc := h c (List.mem_cons_self c cs)
    simp only [orSub, hc, Bool.false_eq_true, if_false]
    rw [orSub_eq_self cs (fun c' hc' => h c' (List.mem_cons_of_mem c hc'))]

/-- A one-character replace is the identity when the character is absent. -/
theorem replaceChar_eq_self (t : Char) (rep : List Char) :
    ∀ cs : List Char, (∀ c ∈ cs, (c == t) = false) → replaceChar t rep cs = cs
  | [] => by intro _; rfl
  | c :: cs => by
    intro h
    have hc := h c (List.mem_cons_self c cs)
    simp only [replaceChar, hc, Bool.false_eq_true, if_false]
    rw [replaceChar_eq_self t rep cs (fun c' hc' => h c' (List.mem_cons_of_mem c hc'))]

/-! ## Sanitiser idempotence (claim C2) and character replacement (claim C3) -/

/-- C2 counterexample: the sanitiser is not idempotent.  Removing the
parenthesised age indicator from "1(2M)M" leaves "1M", which is itself an
age-indicator match, so a second application erases it:
`sanitize_text "1(2M)M" = "1M"` but `sanitize_text "1M" = ""`. -/
theorem sanitize_text_not_idempotent_cex :
    sanitize_text "1(2M)M" = "1M" ∧ sanitize_text (sanitize_text "1(2M)M") = "" ∧
    ¬ (sanitize_text (sanitize_text "1(2M)M") = sanitize_text "1(2M)M") := by
  refine ⟨by decide, by decide, by decide⟩

/-- C2 (amended): whatever the Markdown round trip `md` and the demojize
stage `dem` do, the sanitiser is idempotent on every input whose
sanitised output is a fixed point of each stage that can rewrite
sanitised text — the Markdown round trip, the age-indicator removal, the
URL removal, the punctuation-spacing pass and demojize (deleting or
rewriting a match can splice fresh matchable text out of its
surroundings, which is exactly how idempotence fails); the remaining
stages (the whitespace collapses, the slash substitution and the two
`str.replace` calls) are proved to be always the identity on sanitised
output. -/
theorem sanitize_text_idem_of_fixpoints (md dem : List Char → List Char) (cs : List Char)
    (h0 : md (sanitizeCharsWith md dem cs) = sanitizeCharsWith md dem cs)
    (h1 : ageSub (sanitizeCharsWith md dem cs) = sanitizeCharsWith md dem cs)
    (h2 : urlSub (sanitizeCharsWith md dem cs) = sanitizeCharsWith md dem cs)
    (h3 : spaceClass (sanitizeCharsWith md dem cs) = sanitizeCharsWith md dem cs)
    (h4 : dem (sanitizeCharsWith md dem cs) = sanitizeCharsWith md dem cs) :
    sanitizeCharsWith md dem (sanitizeCharsWith md dem cs) = sanitizeCharsWith md dem cs := by
  set y := sanitizeCharsWith md dem cs with hy
  have hbad : ∀ c ∈ y, bigClass c = false :=
    spaceClass_fix_no_bad _ h3
  have hslash : ∀ c ∈ y, (c == '/') = false := by
    intro c hc
    cases hcc : (c == '/') with
    | false => rfl
    | true =>
      have hceq : c = '/' := by simpa using hcc
      have := hbad c hc
      rw [hceq] at this
      exact absurd this (by decide)
  have hplus : ∀ c ∈ y, (c == '+') = false := by
    intro c hc
    cases hcc : (c == '+') with
    | false => rfl
    | true =>
      have hceq : c = '+' := by simpa using hcc
      have := hbad c hc
      rw [hceq] at this
      exact absurd this (by decide)
  have hamp : ∀ c ∈ y, (c == '&') = false := by
    intro c hc
    cases hcc : (c == '&') with
    | false => rfl
    | true =>
      have hceq : c = '&' := by simpa using hcc
      have := hbad c hc
      rw [hceq] at this
      exact absurd this (by decide)
  have hcol : collapse y = y := by
    rw [hy]
    unfold sanitizeCharsWith
    exact collapse_idem _
  show sanitizeCharsWith md dem y = y
  unfold sanitizeCharsWith
  rw [h0, h1, hcol, orSub_eq_self _ hslash, h2, h3,
    replaceChar_eq_self '+' _ _ hplus, replaceChar_eq_self '&' _ _ hamp, h4, hcol]

/-- C2 witness: the plain input "hello there" sanitises to itself; on it
the Markdown round trip and demojize really are the identity (no Markdown
or HTML syntax, no emoji), and it is a fixed point of the three regex
passes, so the amended idempotence applies with those stages
instantiated. -/
theorem sanitize_text_idem_witness :
    sanitizeCharsWith mdText demoj (sanitizeCharsWith mdText demoj "hello there".data) =
      sanitizeCharsWith mdText demoj "hello there".data :=
  sanitize_text_idem_of_fixpoints mdText demoj "hello there".data
    (by decide) (by decide) (by decide) (by decide) (by decide)

/-- C3: the sanitiser does NOT replace '+' with "plus" nor '&' with
"and": the character class of line 87 already turned both into spaces
before the `str.replace` calls of line 88 run (the code's own comment
says it replaces them — the replaces are dead code), so "a + b" and
"a & b" both sanitise to "a b"; the slash and whitespace parts of the
claim do hold: '/' is replaced by " or" (not deleted) and whitespace
runs collapse to single spaces. -/
theorem sanitize_text_plus_amp_dropped :
    sanitize_text "a + b" = "a b" ∧ sanitize_text "a & b" = "a b" ∧
    ¬ (sanitize_text "a + b" = "a plus b") ∧ ¬ (sanitize_text "a & b" = "a and b") ∧
    sanitize_text "a/b" = "a orb" ∧ sanitize_text "a   b" = "a b" := by
  refine ⟨by decide, by decide, by decide, by decide, by decide, by decide⟩
